import Mathlib

/-!
Verification of the OLLA benchmark harness (`benchmarks.py`).

The harness drives the memory-scheduling optimizer of the `olla` package:
it imports a model into a dataflow-graph IR, simulates a baseline node
order, asks the optimizer for a node ordering, a fragmentation-aware
address assignment, a rematerialization plan, or a spilling plan, and
checks the returned summaries with assertions.

The graph IR, the simulator, the optimizer entry point
`ComputeOptimalSchedule`, and the validation utilities live in the `olla`
package, outside the benchmark file; those are modelled here from the
design specification (their doc comments say so).  Everything else —
`measure_pt_alloc_time`, the assertion sequences of `run_node_ordering`,
`run_address_generation`, `run_rematerialization`, `run_spilling`, and
the budget sweeps of the `__main__` block — is embedded directly from
`benchmarks.py`.
-/

set_option maxHeartbeats 1000000

namespace OLLA


/-- Edge of the dataflow graph: one tensor buffer with a byte `size`
(0 denotes a control dependency), the id of the producing node
(`source`), and the ids of the consuming nodes (`sinks`).  This mirrors
the edge attributes `benchmarks.py` reads (`fanout.size`,
`fanout.sinks`, membership in `n.fanin` / `n.fanout`). -/

structure Edge where
  size : ℕ
  source : ℕ
  sinks : List ℕ
  deriving DecidableEq

/-- Node attribute used by the harness: the profiled execution-time
estimate `n.time` (0 models an absent/zero time, tested in Python with
`if not n.time`). -/

structure Node where
  time : ℚ
  deriving DecidableEq

/-- Dataflow graph: the node list (for `g.nodes.values()`) and the edge
list.  Node ids in edges index an abstract node-id space; schedules are
lists of node ids. -/

structure Graph where
  nodes : List Node
  edges : List Edge
  deriving DecidableEq

/-- Edge lookup with an inert default (size 0) for out-of-range
indices. -/

def edgeAt (g : List Edge) (i : ℕ) : Edge :=
  g.getD i ⟨0, 0, []⟩

/-- Maximum prefix sum of a sequence of signed memory events, the empty
prefix (sum 0) included. -/

def maxPrefixSum : List ℤ → ℤ
  | [] => 0
  | x :: xs => max 0 (x + maxPrefixSum xs)

def plusIdx (g : List Edge) (n : ℕ) : List ℕ :=
  (List.range g.length).filter
    (fun i => decide ((edgeAt g i).source = n ∧ 0 < (edgeAt g i).size))

/-- Indices of the edges of `g` consumed by node `n` that carry memory
(the node's non-zero-size fanin). -/

def consumesIdx (g : List Edge) (n : ℕ) : List ℕ :=
  (List.range g.length).filter
    (fun i => decide (n ∈ (edgeAt g i).sinks ∧ 0 < (edgeAt g i).size))

/-- Total byte size of the edges of `g` named by the index list `l`. -/

def sumSizes (g : List Edge) (l : List ℕ) : ℤ :=
  (l.map (fun i => ((edgeAt g i).size : ℤ))).sum

/-- State of the simulator walk: per-edge remaining-sink counts, current
memory usage, observed peak, and the per-step usage trace. -/

structure SimState where
  counts : ℕ → ℕ
  usage : ℤ
  peak : ℤ
  trace : List ℤ

/-- Modelled from the spec: when the Simulator (`olla/simulator.py`, not
part of the benchmark file) visits a node, it marks each non-zero-size
fanout edge as newly live, initializing the edge's remaining-sink count
to its number of sinks. -/

def allocCounts (g : List Edge) (n : ℕ) (counts : ℕ → ℕ) : ℕ → ℕ :=
  fun i =>
    if (edgeAt g i).source = n ∧ 0 < (edgeAt g i).size then
      (edgeAt g i).sinks.length
    else counts i

/-- Modelled from the spec: for each non-zero-size fanin edge of the
visited node, the Simulator decrements the edge's remaining-sink
count. -/

def freeCounts (g : List Edge) (n : ℕ) (counts : ℕ → ℕ) : ℕ → ℕ :=
  fun i =>
    if 0 < (edgeAt g i).size ∧ n ∈ (edgeAt g i).sinks then
      counts i - 1
    else counts i

/-- Modelled from the spec: the fanin edges freed at the visited node —
those whose remaining-sink count reaches zero with this node's
decrement (count 1 before the decrement). -/

def freedIdx (g : List Edge) (n : ℕ) (counts : ℕ → ℕ) : List ℕ :=
  (List.range g.length).filter
    (fun i =>
      decide (0 < (edgeAt g i).size ∧ n ∈ (edgeAt g i).sinks ∧ counts i = 1))

/-- Modelled from the spec: one step of `Simulator.Simulate` — allocate
the node's fanout, record the usage reached (the step's entry of the
per-step trace, and a candidate peak), then release the fanin edges
whose remaining-sink count reaches zero. -/

def stepNode (g : List Edge) (st : SimState) (n : ℕ) : SimState :=
  let c1 := allocCounts g n st.counts
  let u1 := st.usage + sumSizes g (plusIdx g n)
  { counts := freeCounts g n c1
    usage := u1 - sumSizes g (freedIdx g n c1)
    peak := max st.peak u1
    trace := st.trace ++ [u1] }

/-- Modelled from the spec: the Simulator's walk over a node order. -/

def simulateFrom (g : List Edge) (st : SimState) : List ℕ → SimState
  | [] => st
  | n :: rest => simulateFrom g (stepNode g st n) rest

/-- Modelled from the spec: `Simulator.Simulate(node_order)` of
`olla/simulator.py` (absent from the benchmark file).  Walks the nodes
in the given order, adds each non-zero fanout edge's size to the
current usage on production, decrements each non-zero fanin edge's
remaining-sink count and subtracts its size once the count reaches
zero, and returns the peak usage observed together with the per-step
trace, exactly as `run_simulation` consumes it. -/

def Simulate (g : List Edge) (order : List ℕ) : ℤ × List ℤ :=
  let st := simulateFrom g ⟨fun _ => 0, 0, 0, []⟩ order
  (st.peak, st.trace)

/-- Edges whose last consumer is `n` when the nodes of `rest` are the
ones still to execute: `n` is a sink and no sink remains in `rest`. -/

def lastConsumedIdx (g : List Edge) (n : ℕ) (rest : List ℕ) : List ℕ :=
  (List.range g.length).filter
    (fun i =>
      decide (0 < (edgeAt g i).size ∧ n ∈ (edgeAt g i).sinks ∧
        ∀ s ∈ (edgeAt g i).sinks, s ∉ rest))

/-- Signed edge-event sequence of a node order: at each step, a `+size`
event for every non-zero edge the node produces, followed by a `-size`
event for every non-zero edge whose last consumer the node is. -/

def eventList (g : List Edge) : List ℕ → List ℤ
  | [] => []
  | n :: rest =>
      ((plusIdx g n).map (fun i => ((edgeAt g i).size : ℤ)))
        ++ ((lastConsumedIdx g n rest).map (fun i => -((edgeAt g i).size : ℤ)))
        ++ eventList g rest

/-- Variant event sequence that breaks the tie between equal-time events
the other way: at each step the `-size` events of the edges last
consumed there come before the `+size` events of the edges produced
there. -/

def eventListConsumeFirst (g : List Edge) : List ℕ → List ℤ
  | [] => []
  | n :: rest =>
      ((lastConsumedIdx g n rest).map (fun i => -((edgeAt g i).size : ℤ)))
        ++ ((plusIdx g n).map (fun i => ((edgeAt g i).size : ℤ)))
        ++ eventListConsumeFirst g rest

/-- Topological-order condition on a node order, phrased over suffixes:
at every point of the walk, if a non-zero edge's producer has not yet
executed then none of its sinks has executed either (all of them are
still in the pending suffix). -/

def suffixClosed (g : List Edge) (order : List ℕ) : Prop :=
  ∀ k < order.length + 1, ∀ i < g.length, 0 < (edgeAt g i).size →
    (edgeAt g i).source ∈ order.drop k →
    ∀ s ∈ (edgeAt g i).sinks, s ∈ order.drop k

/-- Edges never list their own producer among their sinks. -/

def noSelfLoop (g : List Edge) : Prop :=
  ∀ i < g.length, 0 < (edgeAt g i).size →
    (edgeAt g i).source ∉ (edgeAt g i).sinks

/-- Each non-zero edge's sink list names each consuming node once. -/

def sinksNodup (g : List Edge) : Prop :=
  ∀ i < g.length, 0 < (edgeAt g i).size → (edgeAt g i).sinks.Nodup

instance (g : List Edge) (order : List ℕ) : Decidable (suffixClosed g order) := by
  unfold suffixClosed
  apply Nat.decidableBallLT

instance (g : List Edge) : Decidable (noSelfLoop g) := by
  unfold noSelfLoop
  infer_instance

instance (g : List Edge) : Decidable (sinksNodup g) := by
  unfold sinksNodup
  infer_instance

def simCountsInv (g : List Edge) (counts : ℕ → ℕ) (rest : List ℕ) : Prop :=
  ∀ i < g.length, 0 < (edgeAt g i).size →
    counts i =
      if (edgeAt g i).source ∈ rest then 0
      else ((edgeAt g i).sinks.filter (fun s => decide (s ∈ rest))).length

def gEx : List Edge := [⟨5, 0, [1]⟩, ⟨5, 1, [2]⟩, ⟨0, 0, [2]⟩]

/-- Concrete topological order for `gEx`. -/

def orderEx : List ℕ := [0, 1, 2]

/-- C7 (amended): for every graph and every valid topological node order
(no duplicate nodes, producers of non-zero edges appear and precede all
their sinks, a producer is never its own sink, sinks listed once), the
peak memory returned by `Simulator.Simulate` equals the maximum
prefix-sum of the signed edge events, where at each step the `+size`
production events precede the `-size` last-consumption events — the
tie-break the simulator itself uses.  (The tie-break is NOT immaterial;
see the counterexample.) -/

structure PtWalkState where
  refCounts : ℕ → Option ℤ
  memSeq : List ℕ

/-- One `edge_ref_counts[fanout] = len(fanout.sinks)` step of the fanout
loop of `measure_pt_alloc_time`, together with appending the allocation
event to `mem_sequence`. -/

def ptAllocF (g : List Edge) (st : PtWalkState) (i : ℕ) : PtWalkState :=
  { refCounts := fun j =>
      if j = i then some ((edgeAt g i).sinks.length : ℤ) else st.refCounts j
    memSeq := st.memSeq ++ [i] }

/-- Fanout loop of `measure_pt_alloc_time` (src/benchmarks.py lines
290-296): every non-zero-size fanout edge of the node gets its
reference count initialized to its number of sinks and an allocation
event appended. -/

def ptAlloc (g : List Edge) (n : ℕ) (st : PtWalkState) : PtWalkState :=
  (plusIdx g n).foldl (ptAllocF g) st

/-- Fanin loop of `measure_pt_alloc_time` (src/benchmarks.py lines
298-304): zero-size edges are skipped (they are excluded from the index
list), each remaining edge's reference count is decremented (a missing
dictionary key raises a Python `KeyError`, modelled as `none`), and the
deallocation event is appended when the count reaches zero. -/

def ptFree (g : List Edge) : PtWalkState → List ℕ → Option PtWalkState
  | st, [] => some st
  | st, i :: is =>
      match st.refCounts i with
      | none => none
      | some c =>
          ptFree g
            { refCounts := fun j => if j = i then some (c - 1) else st.refCounts j
              memSeq := if c - 1 = 0 then st.memSeq ++ [i] else st.memSeq }
            is

/-- One node visit of the `measure_pt_alloc_time` walk. -/

def ptStep (g : List Edge) (st : PtWalkState) (n : ℕ) : Option PtWalkState :=
  ptFree g (ptAlloc g n st) (consumesIdx g n)

/-- The walk of `measure_pt_alloc_time` over a node ordering. -/

def ptWalk (g : List Edge) : PtWalkState → List ℕ → Option PtWalkState
  | st, [] => some st
  | st, n :: rest =>
      match ptStep g st n with
      | none => none
      | some st' => ptWalk g st' rest

/-- Embedded from `Benchmark.measure_pt_alloc_time` (src/benchmarks.py
lines 287-304): the construction of `edge_ref_counts` and
`mem_sequence` from a node ordering.  (The subsequent wall-clock timing
loop over `mem_sequence` is I/O and is not modelled.) -/

def measure_pt_alloc_time (g : List Edge) (order : List ℕ) :
    Option PtWalkState :=
  ptWalk g ⟨fun _ => none, []⟩ order

/-- Witness for C7's amended theorem at the concrete graph `gEx`. -/

def ptZeroExempt (g : List Edge) (st : PtWalkState) : Prop :=
  (∀ i, (edgeAt g i).size = 0 → st.refCounts i = none) ∧
  (∀ i ∈ st.memSeq, 0 < (edgeAt g i).size)

def ptCountsInv (g : List Edge) (rc : ℕ → Option ℤ) (rest : List ℕ) : Prop :=
  ∀ i < g.length, 0 < (edgeAt g i).size →
    rc i = if (edgeAt g i).source ∈ rest then none
      else some
        ((((edgeAt g i).sinks.filter (fun s => decide (s ∈ rest))).length : ℤ))

/-- Event-count invariant of the walk: a pending non-zero edge has no
event in `mem_sequence`; a produced one has its allocation event, plus
its single deallocation event once every sink has run (edges with no
sinks are never deallocated). -/

def ptMemInv (g : List Edge) (seq : List ℕ) (rest : List ℕ) : Prop :=
  ∀ i < g.length, 0 < (edgeAt g i).size →
    seq.count i =
      if (edgeAt g i).source ∈ rest then 0
      else if ((edgeAt g i).sinks.filter (fun s => decide (s ∈ rest))) = [] ∧
          (edgeAt g i).sinks ≠ [] then 2
      else 1

structure SchedSummary where
  peak_mem_usage : ℚ
  required_memory : ℚ
  total_data_swapped : ℚ
  rematerialization_time : ℚ
  deriving DecidableEq

/-- Output of one `ComputeOptimalSchedule` call as the benchmark consumes
it: the summary and the schedule (a node order). -/

structure SchedOutput where
  summary : SchedSummary
  schedule : List ℕ
  deriving DecidableEq

/-- Modelled from the spec: `utils.validate_timeline` of the `olla`
package (absent from the benchmark file) checks topological consistency
of a schedule — every edge's producer and every sink are scheduled, no
node twice, and each producer comes strictly before each of its sinks. -/

def validate_timeline (g : List Edge) (order : List ℕ) : Bool :=
  decide order.Nodup &&
    g.all (fun e =>
      decide (e.source ∈ order) &&
        e.sinks.all (fun s =>
          decide (s ∈ order) &&
            decide (order.indexOf e.source < order.indexOf s)))

/-- Valid topological schedule, as the Scheduler result contract of the
spec states it: a duplicate-free linearization in which every producer
appears strictly before each of its sinks. -/

def ValidTopoOrder (g : List Edge) (order : List ℕ) : Prop :=
  order.Nodup ∧ ∀ e ∈ g, e.source ∈ order ∧
    ∀ s ∈ e.sinks, s ∈ order ∧ order.indexOf e.source < order.indexOf s

instance (g : List Edge) (order : List ℕ) :
    Decidable (ValidTopoOrder g order) := by
  unfold ValidTopoOrder
  infer_instance

def validate_node_ordering (g : Graph) (order : List ℕ) : Bool :=
  validate_timeline g.edges order

/-- Mode knobs of `ComputeOptimalSchedule` as the benchmark exercises
them: plain ordering (`allow_swaps=False, max_spills=0`), address
generation (`account_for_fragmentation=True, user_schedule=...`),
rematerialization (`allow_rematerialization=True, mem_limit=...`), and
spilling (`allow_swaps=True, mem_limit=...`). -/

inductive SchedMode
  | plain
  | fragmentation
  | rematerialization
  | spilling
  deriving DecidableEq

/-- Modelled from the spec: the result contract of
`training_graph_optimizer.Scheduler.ComputeOptimalSchedule` (absent
from the benchmark file).  In every mode the schedule is a valid
topological order; `total_data_swapped` is 0 unless spilling is
enabled and `rematerialization_time` is 0 unless rematerialization is
enabled; plain mode also guarantees `peak_mem_usage == required_memory`
(no fragmentation loss); rematerialization and spilling meet their
budget exactly (`peak_mem_usage == required_memory`) with a
non-negative added cost. -/

def ComputeOptimalScheduleContract (g : Graph) (mode : SchedMode)
    (r : SchedOutput) : Prop :=
  ValidTopoOrder g.edges r.schedule ∧
    (match mode with
      | .plain =>
          r.summary.peak_mem_usage = r.summary.required_memory ∧
            r.summary.total_data_swapped = 0 ∧
            r.summary.rematerialization_time = 0
      | .fragmentation =>
          r.summary.total_data_swapped = 0 ∧
            r.summary.rematerialization_time = 0
      | .rematerialization =>
          r.summary.peak_mem_usage = r.summary.required_memory ∧
            r.summary.total_data_swapped = 0 ∧
            0 ≤ r.summary.rematerialization_time
      | .spilling =>
          r.summary.peak_mem_usage = r.summary.required_memory ∧
            0 ≤ r.summary.total_data_swapped ∧
            r.summary.rematerialization_time = 0)

instance (g : Graph) (mode : SchedMode) (r : SchedOutput) :
    Decidable (ComputeOptimalScheduleContract g mode r) := by
  unfold ComputeOptimalScheduleContract
  cases mode <;> infer_instance

/-- Embedded from the `model_runtime` loops of `run_rematerialization`
and `run_spilling` (src/benchmarks.py lines 377-381 and 399-403): sum
`n.time` over the graph's nodes, skipping falsy (zero) times
(`if not n.time: continue`). -/

def modelRuntime (g : Graph) : ℚ :=
  g.nodes.foldl (fun acc n => if n.time = 0 then acc else acc + n.time) 0

/-- Embedded from `Benchmark.run_node_ordering` (src/benchmarks.py lines
323-339): the assertion sequence and the returned peak.  The external
scheduler call is the input `r`; a failing `assert` is `none`.
`utils.extract_node_ordering` (absent from the benchmark file) is
modelled from the spec as yielding the schedule's node order. -/

def run_node_ordering (g : Graph) (r : SchedOutput) : Option (ℚ × List ℕ) :=
  if validate_timeline g.edges r.schedule = true ∧
      validate_node_ordering g r.schedule = true ∧
      r.summary.peak_mem_usage = r.summary.required_memory ∧
      r.summary.total_data_swapped = 0
  then some (r.summary.peak_mem_usage, r.schedule)
  else none

/-- Embedded from `Benchmark.run_address_generation` (src/benchmarks.py
lines 341-365): sets `peak_mem_usage := summary["required_memory"]`,
computes the fragmentation ratio
`(peak_mem_usage - summary["peak_mem_usage"]) / peak_mem_usage`, then
runs the assertion sequence and returns the pair.  The external
scheduler output is the input `r`; the address-map check
`utils.validate_address_allocation(mem_loc)` (absent from the benchmark
file) is abstracted as the boolean input `allocOk`; the Python
`ZeroDivisionError` raised when `required_memory = 0` and any failing
assert are `none`. -/

def run_address_generation (g : Graph) (r : SchedOutput) (allocOk : Bool) :
    Option (ℚ × ℚ) :=
  if r.summary.required_memory = 0 then none
  else
    if validate_timeline g.edges r.schedule = true ∧ allocOk = true ∧
        r.summary.peak_mem_usage ≤ r.summary.required_memory ∧
        r.summary.total_data_swapped = 0
    then some (r.summary.required_memory,
      (r.summary.required_memory - r.summary.peak_mem_usage) /
        r.summary.required_memory)
    else none

/-- Embedded from `Benchmark.run_rematerialization` (src/benchmarks.py
lines 367-385): reads `extra_runtime = summary["rematerialization_time"]`,
sums the model runtime, runs the asserts, and returns the relative
overhead.  A zero model runtime is a Python `ZeroDivisionError`,
modelled as `none`. -/

def run_rematerialization (g : Graph) (r : SchedOutput) : Option ℚ :=
  if validate_timeline g.edges r.schedule = true ∧
      r.summary.peak_mem_usage = r.summary.required_memory ∧
      r.summary.total_data_swapped = 0
  then
    if modelRuntime g = 0 then none
    else some (r.summary.rematerialization_time / modelRuntime g)
  else none

/-- Embedded from `Benchmark.run_spilling` (src/benchmarks.py lines
387-407): `extra_runtime = summary["total_data_swapped"] / 16.0e9`,
normalized by the model runtime, guarded by the assertion sequence.  A
zero model runtime is a Python `ZeroDivisionError`, modelled as
`none`. -/

def run_spilling (g : Graph) (r : SchedOutput) : Option ℚ :=
  if validate_timeline g.edges r.schedule = true ∧
      r.summary.peak_mem_usage = r.summary.required_memory
  then
    if modelRuntime g = 0 then none
    else some (r.summary.total_data_swapped / 16000000000 / modelRuntime g)
  else none

/-- Embedded from the budget sweeps of the `__main__` block
(src/benchmarks.py lines 592-615 for rematerialization and 636-653 for
spilling): walk the savings levels in order, request
`peak * (1 - savings)` clamped up to `min_memory`, and stop right after
a clamped request (`done = True` followed by `break`). -/

def sweepAux (peak minMemory : ℚ) : List ℚ → List ℚ
  | [] => []
  | s :: rest =>
      if peak * (1 - s) < minMemory then [minMemory]
      else peak * (1 - s) :: sweepAux peak minMemory rest

/-- The savings levels `[0.1, 0.25, 0.5, 0.75, 1.0]` both sweeps use. -/

def savingsLevels : List ℚ := [1/10, 1/4, 1/2, 3/4, 1]

/-- The sequence of memory budgets one sweep passes to the scheduler as
`mem_limit`. -/

def sweepBudgets (peak minMemory : ℚ) : List ℚ :=
  sweepAux peak minMemory savingsLevels

/-- Concrete benchmark graph extending `gEx` with node times 1, 2, 0
(the third node is untimed). -/

def graphEx : Graph := ⟨[⟨1⟩, ⟨2⟩, ⟨0⟩], gEx⟩

/-- Concrete plain-mode scheduler output for `graphEx`. -/

def plainOutEx : SchedOutput := ⟨⟨10, 10, 0, 0⟩, orderEx⟩

/-- Concrete fragmentation-mode scheduler output for `graphEx`: the
theoretical peak (field `peak_mem_usage`) is 1, the achieved packed
peak (field `required_memory`) is 2. -/

def fragOutEx : SchedOutput := ⟨⟨1, 2, 0, 0⟩, orderEx⟩

/-- Concrete rematerialization-mode scheduler output for `graphEx`. -/

def rematOutEx : SchedOutput := ⟨⟨10, 10, 0, 2⟩, orderEx⟩

/-- Concrete spilling-mode scheduler output for `graphEx`. -/

def spillOutEx : SchedOutput := ⟨⟨10, 10, 32000000000, 0⟩, orderEx⟩

/-- C1: for every graph and every plain-mode result satisfying the
(spec-modelled) `ComputeOptimalSchedule` contract, the assertion
sequence of `run_node_ordering` passes — in particular the assertions
`peak_mem_usage == required_memory` and `total_data_swapped == 0` never
fail — and the function returns the peak with the node ordering. -/

theorem maxPrefixSum_nonneg (l : List ℤ) : 0 ≤ maxPrefixSum l := by
  cases l with
  | nil => simp [maxPrefixSum]
  | cons x xs => simp [maxPrefixSum]

theorem maxPrefixSum_append (a b : List ℤ) :
    maxPrefixSum (a ++ b) = max (maxPrefixSum a) (a.sum + maxPrefixSum b) := by
  induction a with
  | nil =>
      simp [maxPrefixSum, max_eq_right (maxPrefixSum_nonneg b)]
  | cons x xs ih =>
      simp only [List.cons_append, maxPrefixSum, List.append_eq, ih, List.sum_cons]
      omega

theorem maxPrefixSum_of_nonneg {l : List ℤ} (h : ∀ x ∈ l, 0 ≤ x) :
    maxPrefixSum l = l.sum := by
  induction l with
  | nil => simp [maxPrefixSum]
  | cons x xs ih =>
      have hx : 0 ≤ x := h x (List.mem_cons_self _ _)
      have hxs : ∀ y ∈ xs, 0 ≤ y := fun y hy => h y (List.mem_cons_of_mem _ hy)
      have hsum : 0 ≤ xs.sum := List.sum_nonneg hxs
      simp only [maxPrefixSum, ih hxs, List.sum_cons]
      exact max_eq_right (by linarith)

theorem maxPrefixSum_of_nonpos {l : List ℤ} (h : ∀ x ∈ l, x ≤ 0) :
    maxPrefixSum l = 0 := by
  induction l with
  | nil => rfl
  | cons x xs ih =>
      have hx : x ≤ 0 := h x (List.mem_cons_self _ _)
      have hxs : ∀ y ∈ xs, y ≤ 0 := fun y hy => h y (List.mem_cons_of_mem _ hy)
      simp only [maxPrefixSum, ih hxs]
      exact max_eq_left (by linarith)

/-- Indices of the edges of `g` produced by node `n` that carry memory
(the node's non-zero-size fanout). -/

theorem suffixClosed_cons {g : List Edge} {n : ℕ} {rest : List ℕ}
    (h : suffixClosed g (n :: rest)) : suffixClosed g rest := by
  intro k hk i hi hsz hsrc s hs
  have hk' : k + 1 < (n :: rest).length + 1 := by
    simp only [List.length_cons]; omega
  have := h (k + 1) hk' i hi hsz
  rw [List.drop_succ_cons] at this
  exact this hsrc s hs

/-- Simulator-walk invariant: with the nodes of `rest` still to execute,
a pending non-zero edge (producer in `rest`) has count 0 (its slot was
never initialized), and a produced one has count equal to its number of
sinks still pending. -/

theorem sum_map_neg_sizes (g : List Edge) (l : List ℕ) :
    (l.map (fun i => -((edgeAt g i).size : ℤ))).sum = -sumSizes g l := by
  induction l with
  | nil => simp [sumSizes]
  | cons a tl ih => simp [sumSizes, List.sum_cons, ih] at *; omega

theorem sumSizes_nonneg (g : List Edge) (l : List ℕ) : 0 ≤ sumSizes g l := by
  apply List.sum_nonneg
  intro x hx
  rw [List.mem_map] at hx
  obtain ⟨i, _, rfl⟩ := hx
  exact Int.natCast_nonneg _

theorem length_filter_mem_cons {sinks : List ℕ} (hnd : sinks.Nodup)
    (n : ℕ) (rest : List ℕ) (hn : n ∉ rest) :
    (sinks.filter (fun s => decide (s ∈ n :: rest))).length =
      (sinks.filter (fun s => decide (s ∈ rest))).length +
        (if n ∈ sinks then 1 else 0) := by
  induction sinks with
  | nil => simp
  | cons a tl ih =>
      rw [List.nodup_cons] at hnd
      obtain ⟨ha, htl⟩ := hnd
      have hcnt : (if n ∈ a :: tl then (1 : ℕ) else 0) =
          (if n = a then 1 else 0) + (if n ∈ tl then 1 else 0) := by
        by_cases hna : n = a
        · subst hna
          simp [ha]
        · simp [List.mem_cons, hna]
      rw [List.filter_cons, List.filter_cons, hcnt]
      by_cases han : a = n
      · subst han
        have hcong : List.filter (fun s => decide (s ∈ a :: rest)) tl =
            List.filter (fun s => decide (s ∈ rest)) tl := by
          apply List.filter_congr
          intro s hs
          have hsa : s ≠ a := fun h => ha (h ▸ hs)
          simp [List.mem_cons, hsa]
        rw [if_pos (by simp : decide (a ∈ a :: rest) = true),
          if_neg (by simp [hn] : ¬decide (a ∈ rest) = true),
          List.length_cons, hcong, if_pos rfl, if_neg ha]
      · have hna : ¬n = a := fun h => han h.symm
        by_cases har : a ∈ rest
        · rw [if_pos (by simp [har] : decide (a ∈ n :: rest) = true),
            if_pos (by simp [har] : decide (a ∈ rest) = true),
            List.length_cons, List.length_cons, ih htl, if_neg hna]
          omega
        · rw [if_neg (by simp [List.mem_cons, han, har] :
              ¬decide (a ∈ n :: rest) = true),
            if_neg (by simp [har] : ¬decide (a ∈ rest) = true),
            ih htl, if_neg hna]
          omega

theorem filter_mem_cons_len_one_iff {sinks : List ℕ} (hnd : sinks.Nodup)
    {n : ℕ} {rest : List ℕ} (hmem : n ∈ sinks) (hn : n ∉ rest) :
    (sinks.filter (fun s => decide (s ∈ n :: rest))).length = 1 ↔
      ∀ s ∈ sinks, s ∉ rest := by
  rw [length_filter_mem_cons hnd n rest hn, if_pos hmem]
  constructor
  · intro h s hs hsr
    have h0 : (sinks.filter (fun s => decide (s ∈ rest))).length = 0 := by
      omega
    rw [List.length_eq_zero] at h0
    have hmem2 : s ∈ sinks.filter (fun s => decide (s ∈ rest)) := by
      rw [List.mem_filter]
      exact ⟨hs, by simp [hsr]⟩
    rw [h0] at hmem2
    simp at hmem2
  · intro h
    have h0 : sinks.filter (fun s => decide (s ∈ rest)) = [] := by
      rw [List.filter_eq_nil_iff]
      intro s hs
      simp [h s hs]
    rw [h0]
    rfl

theorem stepNode_counts (g : List Edge) (st : SimState) (n : ℕ) :
    (stepNode g st n).counts = freeCounts g n (allocCounts g n st.counts) :=
  rfl

theorem stepNode_usage (g : List Edge) (st : SimState) (n : ℕ) :
    (stepNode g st n).usage = st.usage + sumSizes g (plusIdx g n) -
      sumSizes g (freedIdx g n (allocCounts g n st.counts)) :=
  rfl

theorem stepNode_peak (g : List Edge) (st : SimState) (n : ℕ) :
    (stepNode g st n).peak = max st.peak (st.usage + sumSizes g (plusIdx g n)) :=
  rfl

theorem simulateFrom_peak (g : List Edge) (Hns : noSelfLoop g)
    (Hsnd : sinksNodup g) :
    ∀ rest : List ℕ, rest.Nodup → suffixClosed g rest →
      ∀ st : SimState, simCountsInv g st.counts rest → st.usage ≤ st.peak →
        (simulateFrom g st rest).peak =
          max st.peak (st.usage + maxPrefixSum (eventList g rest)) := by
  intro rest
  induction rest with
  | nil =>
      intro _ _ st _ hup
      simp only [simulateFrom, eventList, maxPrefixSum, add_zero]
      omega
  | cons n rest ih =>
      intro hnd hsc st hinv hup
      have hnr : n ∉ rest := (List.nodup_cons.mp hnd).1
      have hndr : rest.Nodup := (List.nodup_cons.mp hnd).2
      have hscr : suffixClosed g rest := suffixClosed_cons hsc
      have hsc0 : ∀ i < g.length, 0 < (edgeAt g i).size →
          (edgeAt g i).source ∈ n :: rest →
          ∀ s ∈ (edgeAt g i).sinks, s ∈ n :: rest := by
        intro i hi hsz hsrc s hs
        have h0 := hsc 0 (by omega) i hi hsz
        rw [List.drop_zero] at h0
        exact h0 hsrc s hs
      have hsc1 : ∀ i < g.length, 0 < (edgeAt g i).size →
          (edgeAt g i).source ∈ rest → ∀ s ∈ (edgeAt g i).sinks, s ∈ rest := by
        intro i hi hsz hsrc s hs
        have h1 : (1 : ℕ) < (n :: rest).length + 1 := by
          simp only [List.length_cons]
          omega
        have := hsc 1 h1 i hi hsz
        rw [List.drop_succ_cons, List.drop_zero] at this
        exact this hsrc s hs
      have hcons : ∀ i < g.length, 0 < (edgeAt g i).size →
          n ∈ (edgeAt g i).sinks → (edgeAt g i).source ∉ n :: rest := by
        intro i hi hsz hnsink hmem
        rcases List.mem_cons.mp hmem with h | h
        · exact Hns i hi hsz (by rw [h]; exact hnsink)
        · exact hnr (hsc1 i hi hsz h n hnsink)
      have hfreed : freedIdx g n (allocCounts g n st.counts) =
          lastConsumedIdx g n rest := by
        unfold freedIdx lastConsumedIdx
        apply List.filter_congr
        intro i hi
        rw [List.mem_range] at hi
        rw [decide_eq_decide]
        by_cases hsz : 0 < (edgeAt g i).size
        · by_cases hnsink : n ∈ (edgeAt g i).sinks
          · have hsrc := hcons i hi hsz hnsink
            have hsrcn : ¬(edgeAt g i).source = n := fun h =>
              hsrc (by rw [h]; exact List.mem_cons_self _ _)
            have hc1 : allocCounts g n st.counts i = st.counts i := by
              simp only [allocCounts]
              rw [if_neg (fun h => hsrcn h.1)]
            have hcv : st.counts i =
                ((edgeAt g i).sinks.filter
                  (fun s => decide (s ∈ n :: rest))).length := by
              rw [hinv i hi hsz, if_neg hsrc]
            have hiff := filter_mem_cons_len_one_iff (Hsnd i hi hsz) hnsink hnr
            constructor
            · rintro ⟨_, _, hcount⟩
              exact ⟨hsz, hnsink, hiff.mp (by rw [← hcv, ← hc1]; exact hcount)⟩
            · rintro ⟨_, _, hlast⟩
              exact ⟨hsz, hnsink, by rw [hc1, hcv]; exact hiff.mpr hlast⟩
          · constructor
            · rintro ⟨_, h, _⟩
              exact absurd h hnsink
            · rintro ⟨_, h, _⟩
              exact absurd h hnsink
        · constructor
          · rintro ⟨h, _, _⟩
            exact absurd h hsz
          · rintro ⟨h, _, _⟩
            exact absurd h hsz
      have hinv' : simCountsInv g
          (freeCounts g n (allocCounts g n st.counts)) rest := by
        intro i hi hsz
        by_cases hsrcn : (edgeAt g i).source = n
        · have hsnotin : (edgeAt g i).source ∉ rest := by
            rw [hsrcn]
            exact hnr
          rw [if_neg hsnotin]
          have hnsk : n ∉ (edgeAt g i).sinks := fun h =>
            Hns i hi hsz (by rw [hsrcn]; exact h)
          simp only [freeCounts, allocCounts]
          rw [if_neg (fun h => hnsk h.2), if_pos ⟨hsrcn, hsz⟩]
          have hall : ∀ s ∈ (edgeAt g i).sinks, s ∈ rest := by
            intro s hs
            have hmem := hsc0 i hi hsz
              (by rw [hsrcn]; exact List.mem_cons_self _ _) s hs
            rcases List.mem_cons.mp hmem with h | h
            · exact absurd (h ▸ hs) hnsk
            · exact h
          rw [List.filter_eq_self.mpr (by intro s hs; simp [hall s hs])]
        · have hat : (if (edgeAt g i).source = n ∧ 0 < (edgeAt g i).size
              then (edgeAt g i).sinks.length else st.counts i) = st.counts i :=
            if_neg (fun h => hsrcn h.1)
          by_cases hsrest : (edgeAt g i).source ∈ rest
          · rw [if_pos hsrest]
            have hold : st.counts i = 0 := by
              rw [hinv i hi hsz, if_pos (List.mem_cons_of_mem _ hsrest)]
            simp only [freeCounts, allocCounts]
            rw [hat, hold]
            split
            · rfl
            · rfl
          · have hsnin : (edgeAt g i).source ∉ n :: rest := by
              intro h
              rcases List.mem_cons.mp h with h | h
              · exact hsrcn h
              · exact hsrest h
            rw [if_neg hsrest]
            have hold : st.counts i =
                ((edgeAt g i).sinks.filter
                  (fun s => decide (s ∈ n :: rest))).length := by
              rw [hinv i hi hsz, if_neg hsnin]
            simp only [freeCounts, allocCounts]
            rw [hat, hold]
            have hsplit := length_filter_mem_cons (Hsnd i hi hsz) n rest hnr
            rw [hsplit]
            by_cases hn : n ∈ (edgeAt g i).sinks
            · rw [if_pos ⟨hsz, hn⟩, if_pos hn]
              omega
            · rw [if_neg (fun h => hn h.2), if_neg hn]
              omega
      have hup' : (stepNode g st n).usage ≤ (stepNode g st n).peak := by
        rw [stepNode_usage, stepNode_peak]
        have h1 := sumSizes_nonneg g (freedIdx g n (allocCounts g n st.counts))
        omega
      have hrec := ih hndr hscr (stepNode g st n)
        (by rw [stepNode_counts]; exact hinv') hup'
      have hstep : simulateFrom g st (n :: rest) =
          simulateFrom g (stepNode g st n) rest := rfl
      rw [hstep, hrec, stepNode_peak, stepNode_usage, hfreed]
      have hplus : ∀ x ∈ (plusIdx g n).map (fun i => ((edgeAt g i).size : ℤ)),
          0 ≤ x := by
        intro x hx
        rw [List.mem_map] at hx
        obtain ⟨i, _, rfl⟩ := hx
        exact Int.natCast_nonneg _
      have hminus : ∀ x ∈ (lastConsumedIdx g n rest).map
          (fun i => -((edgeAt g i).size : ℤ)), x ≤ 0 := by
        intro x hx
        rw [List.mem_map] at hx
        obtain ⟨i, _, rfl⟩ := hx
        simp
      have hev : eventList g (n :: rest) =
          ((plusIdx g n).map (fun i => ((edgeAt g i).size : ℤ)))
            ++ (((lastConsumedIdx g n rest).map
                (fun i => -((edgeAt g i).size : ℤ)))
              ++ eventList g rest) := by
        rw [eventList]
        simp [List.append_assoc]
      rw [hev, maxPrefixSum_append, maxPrefixSum_append,
        maxPrefixSum_of_nonneg hplus, maxPrefixSum_of_nonpos hminus,
        sum_map_neg_sizes]
      have hPdef : ((plusIdx g n).map
          (fun i => ((edgeAt g i).size : ℤ))).sum = sumSizes g (plusIdx g n) :=
        rfl
      rw [hPdef]
      omega

/-- Concrete example graph: a chain `0 → 1 → 2` with two 5-byte edges
and one zero-size control edge `0 → 2`. -/

theorem simulate_peak_eq_max_prefix_sum (g : List Edge) (order : List ℕ)
    (h1 : order.Nodup) (h2 : suffixClosed g order) (h3 : noSelfLoop g)
    (h4 : sinksNodup g)
    (h5 : ∀ i < g.length, 0 < (edgeAt g i).size →
      (edgeAt g i).source ∈ order) :
    (Simulate g order).1 = maxPrefixSum (eventList g order) := by
  have hinv : simCountsInv g (fun _ => 0) order := by
    intro i hi hsz
    rw [if_pos (h5 i hi hsz)]
  have hmain := simulateFrom_peak g h3 h4 order h1 h2
    ⟨fun _ => 0, 0, 0, []⟩ hinv le_rfl
  have hS : (Simulate g order).1 =
      (simulateFrom g ⟨fun _ => 0, 0, 0, []⟩ order).peak := rfl
  rw [hS, hmain]
  have hu : (⟨fun _ => 0, 0, 0, []⟩ : SimState).usage = 0 := rfl
  have hp : (⟨fun _ => 0, 0, 0, []⟩ : SimState).peak = 0 := rfl
  rw [hu, hp]
  have h0 := maxPrefixSum_nonneg (eventList g order)
  omega

/-- C7 counterexample: the claim "independently of tie-breaking among
equal-time events" fails.  On the valid topological order `[0, 1, 2]`
of `gEx`, the simulated peak is 10, but if at each step the `-size`
last-consumption events are ordered before the `+size` production
events, the maximum prefix-sum is 5. -/

theorem simulate_peak_tiebreak_false :
    orderEx.Nodup ∧ suffixClosed gEx orderEx ∧ noSelfLoop gEx ∧
      sinksNodup gEx ∧
      (∀ i < gEx.length, 0 < (edgeAt gEx i).size →
        (edgeAt gEx i).source ∈ orderEx) ∧
      (Simulate gEx orderEx).1 ≠
        maxPrefixSum (eventListConsumeFirst gEx orderEx) := by
  decide

/-- State of the allocation walk of `Benchmark.measure_pt_alloc_time`
(src/benchmarks.py): the `edge_ref_counts` dictionary (a missing key is
`none`) and the `mem_sequence` event list, holding the index of the
edge whose `MemLoc` is appended (first occurrence of an index is the
allocation event, second is the deallocation event). -/

theorem simulate_peak_eq_max_prefix_sum_witness :
    orderEx.Nodup ∧ suffixClosed gEx orderEx ∧ noSelfLoop gEx ∧
      sinksNodup gEx ∧
      (∀ i < gEx.length, 0 < (edgeAt gEx i).size →
        (edgeAt gEx i).source ∈ orderEx) ∧
      (Simulate gEx orderEx).1 = maxPrefixSum (eventList gEx orderEx) :=
  ⟨by decide, by decide, by decide, by decide, by decide,
    simulate_peak_eq_max_prefix_sum gEx orderEx (by decide) (by decide)
      (by decide) (by decide) (by decide)⟩

theorem mem_plusIdx {g : List Edge} {n i : ℕ} (h : i ∈ plusIdx g n) :
    i < g.length ∧ (edgeAt g i).source = n ∧ 0 < (edgeAt g i).size := by
  unfold plusIdx at h
  rw [List.mem_filter, List.mem_range, decide_eq_true_eq] at h
  exact ⟨h.1, h.2.1, h.2.2⟩

theorem plusIdx_mem_iff {g : List Edge} {n i : ℕ} :
    i ∈ plusIdx g n ↔
      i < g.length ∧ (edgeAt g i).source = n ∧ 0 < (edgeAt g i).size := by
  unfold plusIdx
  rw [List.mem_filter, List.mem_range, decide_eq_true_eq]

theorem consumesIdx_mem_iff {g : List Edge} {n i : ℕ} :
    i ∈ consumesIdx g n ↔
      i < g.length ∧ n ∈ (edgeAt g i).sinks ∧ 0 < (edgeAt g i).size := by
  unfold consumesIdx
  rw [List.mem_filter, List.mem_range, decide_eq_true_eq]

theorem plusIdx_nodup (g : List Edge) (n : ℕ) : (plusIdx g n).Nodup :=
  (List.nodup_range _).filter _

theorem consumesIdx_nodup (g : List Edge) (n : ℕ) : (consumesIdx g n).Nodup :=
  (List.nodup_range _).filter _

theorem ptAllocF_fold_refCounts (g : List Edge) (l : List ℕ) :
    ∀ (st : PtWalkState) (j : ℕ),
      ((l.foldl (ptAllocF g) st).refCounts j) =
        if j ∈ l then some (((edgeAt g j).sinks.length : ℤ))
        else st.refCounts j := by
  induction l with
  | nil => intro st j; simp
  | cons i tl ih =>
      intro st j
      rw [List.foldl_cons, ih]
      by_cases hjl : j ∈ tl
      · rw [if_pos hjl, if_pos (List.mem_cons_of_mem _ hjl)]
      · rw [if_neg hjl]
        simp only [ptAllocF]
        by_cases hji : j = i
        · subst hji
          rw [if_pos rfl, if_pos (List.mem_cons_self _ _)]
        · rw [if_neg hji, if_neg (by simp [List.mem_cons, hji, hjl])]

theorem ptAllocF_fold_memSeq (g : List Edge) (l : List ℕ) :
    ∀ st : PtWalkState, (l.foldl (ptAllocF g) st).memSeq = st.memSeq ++ l := by
  induction l with
  | nil => intro st; simp
  | cons i tl ih =>
      intro st
      rw [List.foldl_cons, ih]
      simp [ptAllocF]

theorem ptFree_some (g : List Edge) (l : List ℕ) :
    ∀ st : PtWalkState, l.Nodup → (∀ i ∈ l, st.refCounts i ≠ none) →
      ∃ st', ptFree g st l = some st' ∧
        (∀ j, st'.refCounts j =
          if j ∈ l then (st.refCounts j).map (· - 1) else st.refCounts j) ∧
        st'.memSeq = st.memSeq ++
          l.filter (fun i => decide (st.refCounts i = some 1)) := by
  induction l with
  | nil =>
      intro st _ _
      exact ⟨st, rfl, by intro j; simp, by simp⟩
  | cons i is ih =>
      intro st hnd hkeys
      have hnd' : is.Nodup := (List.nodup_cons.mp hnd).2
      have hni : i ∉ is := (List.nodup_cons.mp hnd).1
      obtain ⟨c, hc⟩ : ∃ c, st.refCounts i = some c := by
        cases hrc : st.refCounts i with
        | none => exact absurd hrc (hkeys i (List.mem_cons_self _ _))
        | some c => exact ⟨c, rfl⟩
      have hstep : ptFree g st (i :: is) =
          ptFree g
            { refCounts := fun j => if j = i then some (c - 1) else st.refCounts j
              memSeq := if c - 1 = 0 then st.memSeq ++ [i] else st.memSeq } is := by
        simp only [ptFree, hc]
      set st1 : PtWalkState :=
        { refCounts := fun j => if j = i then some (c - 1) else st.refCounts j
          memSeq := if c - 1 = 0 then st.memSeq ++ [i] else st.memSeq } with hst1
      have hkeys1 : ∀ j ∈ is, st1.refCounts j ≠ none := by
        intro j hj
        have hji : j ≠ i := fun h => hni (h ▸ hj)
        simp only [hst1, if_neg hji]
        exact hkeys j (List.mem_cons_of_mem _ hj)
      obtain ⟨st', hrun, hrc', hms'⟩ := ih st1 hnd' hkeys1
      refine ⟨st', by rw [hstep]; exact hrun, ?_, ?_⟩
      · intro j
        rw [hrc']
        by_cases hjis : j ∈ is
        · have hji : j ≠ i := fun h => hni (h ▸ hjis)
          rw [if_pos hjis, if_pos (List.mem_cons_of_mem _ hjis)]
          simp only [hst1, if_neg hji]
        · rw [if_neg hjis]
          by_cases hji : j = i
          · subst hji
            rw [if_pos (List.mem_cons_self _ _)]
            simp [hst1, hc]
          · rw [if_neg (by simp [List.mem_cons, hji, hjis])]
            simp only [hst1, if_neg hji]
      · rw [hms']
        have hfilter : is.filter (fun j => decide (st1.refCounts j = some 1)) =
            is.filter (fun j => decide (st.refCounts j = some 1)) := by
          apply List.filter_congr
          intro j hj
          have hji : j ≠ i := fun h => hni (h ▸ hj)
          simp only [hst1, if_neg hji]
        rw [hfilter]
        rw [List.filter_cons]
        by_cases hone : st.refCounts i = some 1
        · have hc1 : c = 1 := by
            rw [hc] at hone
            exact Option.some_injective _ hone
          rw [if_pos (by simp [hone]), hst1]
          simp only [hc1]
          simp
        · have hc1 : ¬(c - 1 = 0) := by
            intro h
            apply hone
            rw [hc]
            congr 1
            omega
          rw [if_neg (by simp [hone]), hst1]
          simp only [if_neg hc1]

/-- Zero-size edges are absent from the reference-count map and from the
event sequence. -/

theorem ptAlloc_zero_pres (g : List Edge) (n : ℕ) (st : PtWalkState)
    (h : ptZeroExempt g st) : ptZeroExempt g (ptAlloc g n st) := by
  constructor
  · intro i hsz
    rw [ptAlloc, ptAllocF_fold_refCounts,
      if_neg (fun hmem => by have := (mem_plusIdx hmem).2.2; omega)]
    exact h.1 i hsz
  · intro i hi
    rw [ptAlloc, ptAllocF_fold_memSeq] at hi
    rcases List.mem_append.mp hi with h1 | h1
    · exact h.2 i h1
    · exact (mem_plusIdx h1).2.2

theorem ptFree_zero_pres (g : List Edge) (l : List ℕ) :
    ∀ st : PtWalkState, (∀ i ∈ l, 0 < (edgeAt g i).size) →
      ptZeroExempt g st → ∀ st', ptFree g st l = some st' →
        ptZeroExempt g st' := by
  induction l with
  | nil =>
      intro st _ h st' he
      obtain rfl : st = st' := by simpa [ptFree] using he
      exact h
  | cons i is ih =>
      intro st hl h st' he
      have hszi : 0 < (edgeAt g i).size := hl i (List.mem_cons_self _ _)
      cases hrc : st.refCounts i with
      | none =>
          rw [ptFree, hrc] at he
          exact absurd he (by simp)
      | some c =>
          have he' : ptFree g
              { refCounts := fun j => if j = i then some (c - 1) else st.refCounts j
                memSeq := if c - 1 = 0 then st.memSeq ++ [i] else st.memSeq }
              is = some st' := by
            rw [ptFree, hrc] at he
            exact he
          refine ih _ (fun j hj => hl j (List.mem_cons_of_mem _ hj)) ⟨?_, ?_⟩
            st' he'
          · intro j hsz
            have hji : j ≠ i := fun hh => by rw [hh] at hsz; omega
            show (if j = i then some (c - 1) else st.refCounts j) = none
            rw [if_neg hji]
            exact h.1 j hsz
          · intro j hj
            have hj' : j ∈ (if c - 1 = 0 then st.memSeq ++ [i] else st.memSeq) :=
              hj
            split at hj'
            · rcases List.mem_append.mp hj' with h1 | h1
              · exact h.2 j h1
              · have hji : j = i := by simpa using h1
                rw [hji]
                exact hszi
            · exact h.2 j hj'

theorem ptWalk_zero_pres (g : List Edge) :
    ∀ (order : List ℕ) (st : PtWalkState), ptZeroExempt g st →
      ∀ st', ptWalk g st order = some st' → ptZeroExempt g st' := by
  intro order
  induction order with
  | nil =>
      intro st h st' he
      obtain rfl : st = st' := by simpa [ptWalk] using he
      exact h
  | cons n rest ih =>
      intro st h st' he
      cases hst : ptStep g st n with
      | none =>
          rw [ptWalk, hst] at he
          exact absurd he (by simp)
      | some st1 =>
          have he' : ptWalk g st1 rest = some st' := by
            rw [ptWalk, hst] at he
            exact he
          refine ih st1 ?_ st' he'
          exact ptFree_zero_pres g (consumesIdx g n) (ptAlloc g n st)
            (fun j hj => (consumesIdx_mem_iff.mp hj).2.2)
            (ptAlloc_zero_pres g n st h) st1 hst

/-- C8: zero-size edges are exempt from all memory accounting — for
every node ordering on which `measure_pt_alloc_time` completes, an edge
of size 0 never enters the reference-count map and contributes no
allocation or deallocation event to `mem_sequence`. -/

theorem zero_size_edges_exempt (g : List Edge) (order : List ℕ)
    (st : PtWalkState) (h : measure_pt_alloc_time g order = some st) :
    ∀ i, (edgeAt g i).size = 0 → st.refCounts i = none ∧ i ∉ st.memSeq := by
  have h0 : ptZeroExempt g ⟨fun _ => none, []⟩ :=
    ⟨fun _ _ => rfl, by intro i hi; simp at hi⟩
  have hp := ptWalk_zero_pres g order _ h0 st h
  intro i hsz
  refine ⟨hp.1 i hsz, fun hmem => ?_⟩
  have := hp.2 i hmem
  omega

/-- Witness for C8 on the concrete graph `gEx`, whose edge 2 has size 0:
the completed walk holds no reference count and no event for it. -/

theorem zero_size_edges_exempt_witness :
    (edgeAt gEx 2).size = 0 ∧
      ((measure_pt_alloc_time gEx orderEx).getD
        ⟨fun _ => none, []⟩).refCounts 2 = none ∧
      2 ∉ ((measure_pt_alloc_time gEx orderEx).getD
        ⟨fun _ => none, []⟩).memSeq :=
  ⟨rfl,
    (zero_size_edges_exempt gEx orderEx _ rfl 2 rfl).1,
    (zero_size_edges_exempt gEx orderEx _ rfl 2 rfl).2⟩

theorem sc_head {g : List Edge} {n : ℕ} {rest : List ℕ}
    (hsc : suffixClosed g (n :: rest)) :
    ∀ i < g.length, 0 < (edgeAt g i).size →
      (edgeAt g i).source ∈ n :: rest →
      ∀ s ∈ (edgeAt g i).sinks, s ∈ n :: rest := by
  intro i hi hsz hsrc s hs
  have h0 := hsc 0 (by omega) i hi hsz
  rw [List.drop_zero] at h0
  exact h0 hsrc s hs

theorem sc_tail {g : List Edge} {n : ℕ} {rest : List ℕ}
    (hsc : suffixClosed g (n :: rest)) :
    ∀ i < g.length, 0 < (edgeAt g i).size → (edgeAt g i).source ∈ rest →
      ∀ s ∈ (edgeAt g i).sinks, s ∈ rest := by
  intro i hi hsz hsrc s hs
  have h1 : (1 : ℕ) < (n :: rest).length + 1 := by
    simp only [List.length_cons]
    omega
  have := hsc 1 h1 i hi hsz
  rw [List.drop_succ_cons, List.drop_zero] at this
  exact this hsrc s hs

theorem consumer_source_done {g : List Edge} (Hns : noSelfLoop g)
    {n : ℕ} {rest : List ℕ} (hnr : n ∉ rest)
    (hsc : suffixClosed g (n :: rest)) :
    ∀ i < g.length, 0 < (edgeAt g i).size → n ∈ (edgeAt g i).sinks →
      (edgeAt g i).source ∉ n :: rest := by
  intro i hi hsz hnsink hmem
  rcases List.mem_cons.mp hmem with h | h
  · exact Hns i hi hsz (by rw [h]; exact hnsink)
  · exact hnr (sc_tail hsc i hi hsz h n hnsink)

theorem count_nodup_ite {l : List ℕ} (h : l.Nodup) (i : ℕ) :
    l.count i = if i ∈ l then 1 else 0 := by
  by_cases hm : i ∈ l
  · rw [if_pos hm]
    exact List.count_eq_one_of_mem h hm
  · rw [if_neg hm]
    exact List.count_eq_zero_of_not_mem hm

/-- Reference-count invariant of the `measure_pt_alloc_time` walk: with
the nodes of `rest` still to run, a pending non-zero edge is not in the
`edge_ref_counts` dictionary, and a produced one maps to its number of
still-pending sinks. -/

theorem ptStep_inv (g : List Edge) (Hns : noSelfLoop g) (Hsnd : sinksNodup g)
    (n : ℕ) (rest : List ℕ) (hnd : (n :: rest).Nodup)
    (hsc : suffixClosed g (n :: rest)) (st : PtWalkState)
    (hci : ptCountsInv g st.refCounts (n :: rest))
    (hmi : ptMemInv g st.memSeq (n :: rest)) :
    ∃ st1, ptStep g st n = some st1 ∧ ptCountsInv g st1.refCounts rest ∧
      ptMemInv g st1.memSeq rest := by
  have hnr : n ∉ rest := (List.nodup_cons.mp hnd).1
  have hA_rc : ∀ j, (ptAlloc g n st).refCounts j =
      if j ∈ plusIdx g n then some (((edgeAt g j).sinks.length : ℤ))
      else st.refCounts j :=
    fun j => ptAllocF_fold_refCounts g (plusIdx g n) st j
  have hA_ms : (ptAlloc g n st).memSeq = st.memSeq ++ plusIdx g n :=
    ptAllocF_fold_memSeq g (plusIdx g n) st
  have hkeys : ∀ i ∈ consumesIdx g n, (ptAlloc g n st).refCounts i ≠ none := by
    intro i hi
    obtain ⟨hlen, hnsink, hsz⟩ := consumesIdx_mem_iff.mp hi
    have hdone := consumer_source_done Hns hnr hsc i hlen hsz hnsink
    have hnp : i ∉ plusIdx g n := fun hp =>
      hdone (by rw [(mem_plusIdx hp).2.1]; exact List.mem_cons_self _ _)
    rw [hA_rc, if_neg hnp, hci i hlen hsz, if_neg hdone]
    simp
  obtain ⟨st1, hrun, h1rc, h1ms⟩ :=
    ptFree_some g (consumesIdx g n) (ptAlloc g n st) (consumesIdx_nodup g n)
      hkeys
  have hfreed_mem : ∀ i,
      i ∈ (consumesIdx g n).filter
        (fun i => decide ((ptAlloc g n st).refCounts i = some 1)) ↔
      (i < g.length ∧ n ∈ (edgeAt g i).sinks ∧ 0 < (edgeAt g i).size) ∧
        ∀ s ∈ (edgeAt g i).sinks, s ∉ rest := by
    intro i
    rw [List.mem_filter, decide_eq_true_eq, consumesIdx_mem_iff]
    constructor
    · rintro ⟨⟨hlen, hnsink, hsz⟩, hone⟩
      refine ⟨⟨hlen, hnsink, hsz⟩, ?_⟩
      have hdone := consumer_source_done Hns hnr hsc i hlen hsz hnsink
      have hnp : i ∉ plusIdx g n := fun hp =>
        hdone (by rw [(mem_plusIdx hp).2.1]; exact List.mem_cons_self _ _)
      rw [hA_rc, if_neg hnp, hci i hlen hsz, if_neg hdone] at hone
      have hlen1 : (((edgeAt g i).sinks.filter
          (fun s => decide (s ∈ n :: rest))).length) = 1 := by
        have := Option.some_injective _ hone
        exact_mod_cast this
      exact (filter_mem_cons_len_one_iff (Hsnd i hlen hsz) hnsink hnr).mp hlen1
    · rintro ⟨⟨hlen, hnsink, hsz⟩, hall⟩
      refine ⟨⟨hlen, hnsink, hsz⟩, ?_⟩
      have hdone := consumer_source_done Hns hnr hsc i hlen hsz hnsink
      have hnp : i ∉ plusIdx g n := fun hp =>
        hdone (by rw [(mem_plusIdx hp).2.1]; exact List.mem_cons_self _ _)
      rw [hA_rc, if_neg hnp, hci i hlen hsz, if_neg hdone]
      have hlen1 := (filter_mem_cons_len_one_iff
        (Hsnd i hlen hsz) hnsink hnr).mpr hall
      rw [hlen1]
      rfl
  refine ⟨st1, hrun, ?_, ?_⟩
  · intro i hi hsz
    by_cases hsrcn : (edgeAt g i).source = n
    · have hnsk : n ∉ (edgeAt g i).sinks := fun h =>
        Hns i hi hsz (by rw [hsrcn]; exact h)
      have hip : i ∈ plusIdx g n := plusIdx_mem_iff.mpr ⟨hi, hsrcn, hsz⟩
      have hic : i ∉ consumesIdx g n := fun h =>
        hnsk (consumesIdx_mem_iff.mp h).2.1
      rw [h1rc, if_neg hic, hA_rc, if_pos hip,
        if_neg (by rw [hsrcn]; exact hnr)]
      have hall : ∀ s ∈ (edgeAt g i).sinks, s ∈ rest := by
        intro s hs
        have hmem := sc_head hsc i hi hsz
          (by rw [hsrcn]; exact List.mem_cons_self _ _) s hs
        rcases List.mem_cons.mp hmem with h | h
        · exact absurd (h ▸ hs) hnsk
        · exact h
      rw [List.filter_eq_self.mpr (by intro s hs; simp [hall s hs])]
    · by_cases hsrest : (edgeAt g i).source ∈ rest
      · have hnsk : n ∉ (edgeAt g i).sinks := by
          intro h
          exact consumer_source_done Hns hnr hsc i hi hsz h
            (List.mem_cons_of_mem _ hsrest)
        have hip : i ∉ plusIdx g n := fun h => hsrcn (mem_plusIdx h).2.1
        have hic : i ∉ consumesIdx g n := fun h =>
          hnsk (consumesIdx_mem_iff.mp h).2.1
        rw [h1rc, if_neg hic, hA_rc, if_neg hip, hci i hi hsz,
          if_pos (List.mem_cons_of_mem _ hsrest), if_pos hsrest]
      · have hsnin : (edgeAt g i).source ∉ n :: rest := by
          intro h
          rcases List.mem_cons.mp h with h | h
          · exact hsrcn h
          · exact hsrest h
        have hip : i ∉ plusIdx g n := fun h => hsrcn (mem_plusIdx h).2.1
        rw [if_neg hsrest, h1rc]
        have hsplit := length_filter_mem_cons (Hsnd i hi hsz) n rest hnr
        by_cases hn : n ∈ (edgeAt g i).sinks
        · have hic : i ∈ consumesIdx g n :=
            consumesIdx_mem_iff.mpr ⟨hi, hn, hsz⟩
          rw [if_pos hic, hA_rc, if_neg hip, hci i hi hsz, if_neg hsnin,
            hsplit, if_pos hn, Option.map_some']
          congr 1
          push_cast
          ring
        · have hic : i ∉ consumesIdx g n := fun h =>
            hn (consumesIdx_mem_iff.mp h).2.1
          rw [if_neg hic, hA_rc, if_neg hip, hci i hi hsz, if_neg hsnin,
            hsplit, if_neg hn]
          norm_num
  · intro i hi hsz
    have hcount : st1.memSeq.count i = st.memSeq.count i +
        (if i ∈ plusIdx g n then 1 else 0) +
        (if i ∈ (consumesIdx g n).filter
          (fun i => decide ((ptAlloc g n st).refCounts i = some 1))
          then 1 else 0) := by
      rw [h1ms, hA_ms, List.count_append, List.count_append,
        count_nodup_ite (plusIdx_nodup g n),
        count_nodup_ite ((consumesIdx_nodup g n).filter _)]
    rw [hcount]
    by_cases hsrcn : (edgeAt g i).source = n
    · have hnsk : n ∉ (edgeAt g i).sinks := fun h =>
        Hns i hi hsz (by rw [hsrcn]; exact h)
      have hip : i ∈ plusIdx g n := plusIdx_mem_iff.mpr ⟨hi, hsrcn, hsz⟩
      have hifr : i ∉ (consumesIdx g n).filter
          (fun i => decide ((ptAlloc g n st).refCounts i = some 1)) :=
        fun h => hnsk ((hfreed_mem i).mp h).1.2.1
      rw [hmi i hi hsz, if_pos (by rw [hsrcn]; exact List.mem_cons_self _ _),
        if_pos hip, if_neg hifr, if_neg (by rw [hsrcn]; exact hnr)]
      have hall : ∀ s ∈ (edgeAt g i).sinks, s ∈ rest := by
        intro s hs
        have hmem := sc_head hsc i hi hsz
          (by rw [hsrcn]; exact List.mem_cons_self _ _) s hs
        rcases List.mem_cons.mp hmem with h | h
        · exact absurd (h ▸ hs) hnsk
        · exact h
      by_cases hsnil : (edgeAt g i).sinks = []
      · rw [if_neg (fun h => h.2 hsnil)]
      · have hcond : ¬((edgeAt g i).sinks.filter
            (fun s => decide (s ∈ rest)) = [] ∧ (edgeAt g i).sinks ≠ []) := by
          rintro ⟨hfil, -⟩
          obtain ⟨s, hs⟩ := List.exists_mem_of_ne_nil _ hsnil
          have hsf : s ∈ (edgeAt g i).sinks.filter
              (fun s => decide (s ∈ rest)) := by
            rw [List.mem_filter]
            exact ⟨hs, by simp [hall s hs]⟩
          rw [hfil] at hsf
          simp at hsf
        rw [if_neg hcond]
    · by_cases hsrest : (edgeAt g i).source ∈ rest
      · have hnsk : n ∉ (edgeAt g i).sinks := by
          intro h
          exact consumer_source_done Hns hnr hsc i hi hsz h
            (List.mem_cons_of_mem _ hsrest)
        have hip : i ∉ plusIdx g n := fun h => hsrcn (mem_plusIdx h).2.1
        have hifr : i ∉ (consumesIdx g n).filter
            (fun i => decide ((ptAlloc g n st).refCounts i = some 1)) :=
          fun h => hnsk ((hfreed_mem i).mp h).1.2.1
        rw [hmi i hi hsz, if_pos (List.mem_cons_of_mem _ hsrest),
          if_neg hip, if_neg hifr, if_pos hsrest]
      · have hsnin : (edgeAt g i).source ∉ n :: rest := by
          intro h
          rcases List.mem_cons.mp h with h | h
          · exact hsrcn h
          · exact hsrest h
        have hip : i ∉ plusIdx g n := fun h => hsrcn (mem_plusIdx h).2.1
        rw [hmi i hi hsz, if_neg hsnin, if_neg hip, if_neg hsrest]
        by_cases hn : n ∈ (edgeAt g i).sinks
        · have hnenil : (edgeAt g i).sinks ≠ [] := fun h => by
            rw [h] at hn
            simp at hn
          have hmemfil : n ∈ (edgeAt g i).sinks.filter
              (fun s => decide (s ∈ n :: rest)) := by
            rw [List.mem_filter]
            exact ⟨hn, by simp⟩
          have hnnil : (edgeAt g i).sinks.filter
              (fun s => decide (s ∈ n :: rest)) ≠ [] := fun h => by
            rw [h] at hmemfil
            simp at hmemfil
          rw [if_neg (fun h => hnnil h.1)]
          by_cases hlast : ∀ s ∈ (edgeAt g i).sinks, s ∉ rest
          · have hifr : i ∈ (consumesIdx g n).filter
                (fun i => decide ((ptAlloc g n st).refCounts i = some 1)) :=
              (hfreed_mem i).mpr ⟨⟨hi, hn, hsz⟩, hlast⟩
            rw [if_pos hifr,
              if_pos ⟨List.filter_eq_nil_iff.mpr
                (by intro s hs; simp [hlast s hs]), hnenil⟩]
          · have hifr : i ∉ (consumesIdx g n).filter
                (fun i => decide ((ptAlloc g n st).refCounts i = some 1)) :=
              fun h => hlast ((hfreed_mem i).mp h).2
            rw [if_neg hifr]
            push_neg at hlast
            obtain ⟨s, hs, hsr⟩ := hlast
            have hsfil : s ∈ (edgeAt g i).sinks.filter
                (fun s => decide (s ∈ rest)) := by
              rw [List.mem_filter]
              exact ⟨hs, by simp [hsr]⟩
            have hcond2 : ¬((edgeAt g i).sinks.filter
                (fun s => decide (s ∈ rest)) = [] ∧
                (edgeAt g i).sinks ≠ []) := by
              rintro ⟨hfil, -⟩
              rw [hfil] at hsfil
              simp at hsfil
            rw [if_neg hcond2]
        · have hifr : i ∉ (consumesIdx g n).filter
              (fun i => decide ((ptAlloc g n st).refCounts i = some 1)) :=
            fun h => hn ((hfreed_mem i).mp h).1.2.1
          rw [if_neg hifr]
          have hfil : (edgeAt g i).sinks.filter
              (fun s => decide (s ∈ n :: rest)) =
              (edgeAt g i).sinks.filter (fun s => decide (s ∈ rest)) := by
            apply List.filter_congr
            intro s hs
            have hsn : s ≠ n := fun h => hn (h ▸ hs)
            simp [List.mem_cons, hsn]
          rw [hfil]
          omega

theorem ptWalk_inv (g : List Edge) (Hns : noSelfLoop g) (Hsnd : sinksNodup g) :
    ∀ rest : List ℕ, rest.Nodup → suffixClosed g rest →
      ∀ st : PtWalkState, ptCountsInv g st.refCounts rest →
        ptMemInv g st.memSeq rest →
        ∃ stf, ptWalk g st rest = some stf ∧
          ptCountsInv g stf.refCounts [] ∧ ptMemInv g stf.memSeq [] := by
  intro rest
  induction rest with
  | nil =>
      intro _ _ st h1 h2
      exact ⟨st, rfl, h1, h2⟩
  | cons n rest ih =>
      intro hnd hsc st h1 h2
      obtain ⟨st1, hstep, h1', h2'⟩ :=
        ptStep_inv g Hns Hsnd n rest hnd hsc st h1 h2
      obtain ⟨stf, hwalk, hf1, hf2⟩ := ih (List.nodup_cons.mp hnd).2
        (suffixClosed_cons hsc) st1 h1' h2'
      refine ⟨stf, ?_, hf1, hf2⟩
      rw [ptWalk, hstep]
      exact hwalk

theorem ptWalk_prefix_nonneg (g : List Edge) (Hns : noSelfLoop g)
    (Hsnd : sinksNodup g) :
    ∀ rest : List ℕ, rest.Nodup → suffixClosed g rest →
      ∀ st : PtWalkState, ptCountsInv g st.refCounts rest →
        ptMemInv g st.memSeq rest →
        ∀ k st', ptWalk g st (rest.take k) = some st' →
          ∀ i < g.length, 0 < (edgeAt g i).size →
            ∀ c, st'.refCounts i = some c → 0 ≤ c := by
  intro rest
  induction rest with
  | nil =>
      intro _ _ st h1 _ k st' he i hi hsz c hc
      obtain rfl : st = st' := by simpa [ptWalk] using he
      rw [h1 i hi hsz] at hc
      split at hc
      · exact absurd hc (by simp)
      · have := Option.some_injective _ hc
        omega
  | cons n rest ih =>
      intro hnd hsc st h1 h2 k st' he i hi hsz c hc
      cases k with
      | zero =>
          obtain rfl : st = st' := by simpa [ptWalk] using he
          rw [h1 i hi hsz] at hc
          split at hc
          · exact absurd hc (by simp)
          · have := Option.some_injective _ hc
            omega
      | succ k =>
          obtain ⟨st1, hstep, h1', h2'⟩ :=
            ptStep_inv g Hns Hsnd n rest hnd hsc st h1 h2
          rw [List.take_succ_cons, ptWalk, hstep] at he
          exact ih (List.nodup_cons.mp hnd).2 (suffixClosed_cons hsc) st1
            h1' h2' k st' he i hi hsz c hc

/-- C9: on a valid topological ordering (no duplicates, every non-zero
edge's producer appears and precedes all of its sinks, and every sink
appears), the `measure_pt_alloc_time` walk completes; each non-zero
edge's reference count starts at its number of sinks (definitional in
the fanout loop), never goes negative at any step of the walk, and ends
at zero, with the edge contributing exactly two events to
`mem_sequence` — one allocation and then one deallocation, the latter
emitted at the single step where the count reaches zero (an edge with
no sinks keeps its allocation event only). -/

theorem refcount_two_events (g : List Edge) (order : List ℕ)
    (h1 : order.Nodup) (h2 : suffixClosed g order) (h3 : noSelfLoop g)
    (h4 : sinksNodup g)
    (h5 : ∀ i < g.length, 0 < (edgeAt g i).size →
      (edgeAt g i).source ∈ order) :
    (∃ stf, measure_pt_alloc_time g order = some stf ∧
      ∀ i < g.length, 0 < (edgeAt g i).size →
        stf.refCounts i = some 0 ∧
        stf.memSeq.count i = (if (edgeAt g i).sinks = [] then 1 else 2)) ∧
    (∀ k st', ptWalk g ⟨fun _ => none, []⟩ (order.take k) = some st' →
      ∀ i < g.length, 0 < (edgeAt g i).size →
        ∀ c, st'.refCounts i = some c → 0 ≤ c) := by
  have hci : ptCountsInv g (fun _ => none) order := by
    intro i hi hsz
    rw [if_pos (h5 i hi hsz)]
  have hmi : ptMemInv g ([] : List ℕ) order := by
    intro i hi hsz
    rw [if_pos (h5 i hi hsz)]
    simp
  constructor
  · obtain ⟨stf, hwalk, hf1, hf2⟩ :=
      ptWalk_inv g h3 h4 order h1 h2 ⟨fun _ => none, []⟩ hci hmi
    refine ⟨stf, hwalk, ?_⟩
    intro i hi hsz
    constructor
    · have := hf1 i hi hsz
      simpa using this
    · have := hf2 i hi hsz
      simp only [List.not_mem_nil, if_neg (fun h => h : ¬False)] at this
      rw [this]
      by_cases hs : (edgeAt g i).sinks = []
      · rw [if_pos hs, if_neg (by simp [hs])]
      · rw [if_neg hs, if_pos (by simp [hs])]
  · exact ptWalk_prefix_nonneg g h3 h4 order h1 h2 ⟨fun _ => none, []⟩
      hci hmi

/-- Witness for C9 at the concrete graph `gEx` and order `orderEx`. -/

theorem refcount_two_events_witness :
    (orderEx.Nodup ∧ suffixClosed gEx orderEx ∧ noSelfLoop gEx ∧
      sinksNodup gEx) ∧
    ((∃ stf, measure_pt_alloc_time gEx orderEx = some stf ∧
      ∀ i < gEx.length, 0 < (edgeAt gEx i).size →
        stf.refCounts i = some 0 ∧
        stf.memSeq.count i = (if (edgeAt gEx i).sinks = [] then 1 else 2)) ∧
    (∀ k st', ptWalk gEx ⟨fun _ => none, []⟩ (orderEx.take k) = some st' →
      ∀ i < gEx.length, 0 < (edgeAt gEx i).size →
        ∀ c, st'.refCounts i = some c → 0 ≤ c)) :=
  ⟨⟨by decide, by decide, by decide, by decide⟩,
    refcount_two_events gEx orderEx (by decide) (by decide) (by decide)
      (by decide) (by decide)⟩

/-- Summary record returned by `ComputeOptimalSchedule`, with the fields
the benchmark file reads: `summary["peak_mem_usage"]`,
`summary["required_memory"]`, `summary["total_data_swapped"]`,
`summary["rematerialization_time"]`. -/

theorem validate_timeline_iff (g : List Edge) (order : List ℕ) :
    validate_timeline g order = true ↔ ValidTopoOrder g order := by
  unfold validate_timeline ValidTopoOrder
  simp only [Bool.and_eq_true, decide_eq_true_eq, List.all_eq_true]

/-- Modelled from the spec: `utils.validate_node_ordering(g, schedule)`
(absent from the benchmark file) checks the schedule against the
dependency structure of the graph; modelled as the same
topological-consistency check on `g`'s edges. -/

theorem plain_mode_summary_asserts_hold (g : Graph) (r : SchedOutput)
    (h : ComputeOptimalScheduleContract g .plain r) :
    run_node_ordering g r = some (r.summary.peak_mem_usage, r.schedule) := by
  obtain ⟨hv, hpeak, hswap, -⟩ := h
  unfold run_node_ordering
  rw [if_pos ⟨(validate_timeline_iff _ _).mpr hv,
    (validate_timeline_iff _ _).mpr hv, hpeak, hswap⟩]

/-- Witness for C1 at a concrete graph and plain-mode output. -/

theorem plain_mode_summary_asserts_hold_witness :
    ComputeOptimalScheduleContract graphEx .plain plainOutEx ∧
      run_node_ordering graphEx plainOutEx =
        some (plainOutEx.summary.peak_mem_usage, plainOutEx.schedule) :=
  ⟨by decide, plain_mode_summary_asserts_hold graphEx plainOutEx (by decide)⟩

/-- C6: in every mode the benchmark exercises, a result satisfying the
(spec-modelled) scheduler contract passes the
`assert utils.validate_timeline(schedule)` placed after the scheduler
call. -/

theorem schedules_pass_validate_timeline (g : Graph) (mode : SchedMode)
    (r : SchedOutput) (h : ComputeOptimalScheduleContract g mode r) :
    validate_timeline g.edges r.schedule = true :=
  (validate_timeline_iff _ _).mpr h.1

/-- Witness for C6 at a concrete graph and mode. -/

theorem schedules_pass_validate_timeline_witness :
    ComputeOptimalScheduleContract graphEx .spilling spillOutEx ∧
      validate_timeline graphEx.edges spillOutEx.schedule = true :=
  ⟨by decide,
    schedules_pass_validate_timeline graphEx .spilling spillOutEx (by decide)⟩

/-- C3: for every rematerialization-mode result satisfying the
(spec-modelled) contract on a graph with a non-zero model runtime, the
assertions of `run_rematerialization` pass — `peak_mem_usage ==
required_memory` and `total_data_swapped == 0` — and the function
returns the reported `rematerialization_time` normalized by the model
runtime. -/

theorem rematerialization_asserts_hold (g : Graph) (r : SchedOutput)
    (h : ComputeOptimalScheduleContract g .rematerialization r)
    (hrt : modelRuntime g ≠ 0) :
    run_rematerialization g r =
      some (r.summary.rematerialization_time / modelRuntime g) := by
  obtain ⟨hv, hpeak, hswap, -⟩ := h
  unfold run_rematerialization
  rw [if_pos ⟨(validate_timeline_iff _ _).mpr hv, hpeak, hswap⟩, if_neg hrt]

theorem modelRuntime_graphEx : modelRuntime graphEx = 3 := by
  norm_num [modelRuntime, graphEx, List.foldl_cons, List.foldl_nil]

/-- Witness for C3 at a concrete graph and rematerialization output. -/

theorem rematerialization_asserts_hold_witness :
    (ComputeOptimalScheduleContract graphEx .rematerialization rematOutEx ∧
      modelRuntime graphEx ≠ 0) ∧
      run_rematerialization graphEx rematOutEx =
        some (rematOutEx.summary.rematerialization_time /
          modelRuntime graphEx) :=
  ⟨⟨by decide, by rw [modelRuntime_graphEx]; norm_num⟩,
    rematerialization_asserts_hold graphEx rematOutEx (by decide)
      (by rw [modelRuntime_graphEx]; norm_num)⟩

theorem modelRuntime_foldl (l : List Node) :
    ∀ a : ℚ, l.foldl (fun acc n => if n.time = 0 then acc else acc + n.time) a =
      a + ((l.filter (fun n => decide (n.time ≠ 0))).map Node.time).sum := by
  induction l with
  | nil => intro a; simp
  | cons n tl ih =>
      intro a
      rw [List.foldl_cons, ih, List.filter_cons]
      by_cases hz : n.time = 0
      · rw [if_pos hz, if_neg (by simp [hz])]
      · rw [if_neg hz, if_pos (by simp [hz])]
        simp only [List.map_cons, List.sum_cons]
        ring

theorem modelRuntime_eq (g : Graph) :
    modelRuntime g =
      ((g.nodes.filter (fun n => decide (n.time ≠ 0))).map Node.time).sum := by
  unfold modelRuntime
  rw [modelRuntime_foldl]
  ring

/-- C5: the overhead `run_spilling` reports equals
`total_data_swapped / 16.0e9` (an assumed transfer bandwidth of 16e9
bytes per second) divided by the model runtime, the sum of `n.time`
over the nodes with a non-zero time. -/

theorem spilling_overhead_formula (g : Graph) (r : SchedOutput) (ov : ℚ)
    (h : run_spilling g r = some ov) :
    ov = r.summary.total_data_swapped / 16000000000 /
      ((g.nodes.filter (fun n => decide (n.time ≠ 0))).map Node.time).sum := by
  unfold run_spilling at h
  split at h
  · split at h
    · exact absurd h (by simp)
    · have hov := Option.some_injective _ h
      rw [← hov, modelRuntime_eq]
  · exact absurd h (by simp)

theorem run_spilling_graphEx_eq :
    run_spilling graphEx spillOutEx = some (2 / 3) := by
  unfold run_spilling
  rw [if_pos ⟨by decide, by decide⟩, modelRuntime_graphEx]
  norm_num [spillOutEx]

/-- Witness for C5 at a concrete graph and spilling output: 32e9 bytes
swapped over 16e9 bytes/s is 2 seconds, over a 3-second model runtime. -/

theorem spilling_overhead_formula_witness :
    run_spilling graphEx spillOutEx = some (2 / 3) ∧
      (2 / 3 : ℚ) = spillOutEx.summary.total_data_swapped / 16000000000 /
        ((graphEx.nodes.filter (fun n => decide (n.time ≠ 0))).map
          Node.time).sum :=
  ⟨run_spilling_graphEx_eq,
    spilling_overhead_formula graphEx spillOutEx (2 / 3)
      run_spilling_graphEx_eq⟩

/-- C10: whenever `run_address_generation` completes, the peak value it
returns (and which the `__main__` block logs as
`address_generation.peak_mem_usage`) is `summary["required_memory"]`,
not the packed `summary["peak_mem_usage"]`; the latter only enters the
returned fragmentation ratio
`(required_memory - peak_mem_usage) / required_memory`. -/

theorem address_generation_reports_required_memory (g : Graph)
    (r : SchedOutput) (ok : Bool) (p f : ℚ)
    (h : run_address_generation g r ok = some (p, f)) :
    p = r.summary.required_memory ∧
      f = (r.summary.required_memory - r.summary.peak_mem_usage) /
        r.summary.required_memory := by
  unfold run_address_generation at h
  split at h
  · exact absurd h (by simp)
  · split at h
    · simp only [Option.some.injEq, Prod.mk.injEq] at h
      exact ⟨h.1.symm, h.2.symm⟩
    · exact absurd h (by simp)

theorem run_address_generation_fragOutEx :
    run_address_generation graphEx fragOutEx true = some (2, 1 / 2) := by
  unfold run_address_generation
  rw [if_neg (by decide : ¬fragOutEx.summary.required_memory = 0),
    if_pos ⟨by decide, rfl, by decide, by decide⟩]
  norm_num [fragOutEx]

/-- Witness for C10 at a concrete accepted input. -/

theorem address_generation_reports_required_memory_witness :
    run_address_generation graphEx fragOutEx true = some (2, 1 / 2) ∧
      (2 : ℚ) = fragOutEx.summary.required_memory ∧
      (1 / 2 : ℚ) =
        (fragOutEx.summary.required_memory -
          fragOutEx.summary.peak_mem_usage) /
          fragOutEx.summary.required_memory :=
  ⟨run_address_generation_fragOutEx,
    address_generation_reports_required_memory graphEx fragOutEx true 2 (1 / 2)
      run_address_generation_fragOutEx⟩

/-- C2 counterexample: the claim, read on the summary fields it names,
says an accepted fragmentation-mode run never has
`peak_mem_usage < required_memory`.  The concrete output `fragOutEx`
is accepted by `run_address_generation` (every assert passes, the pair
`(2, 1/2)` is returned), yet its `summary["peak_mem_usage"] = 1` is
strictly below its `summary["required_memory"] = 2` — the code's
assert goes the other way (`peak_mem_usage <= required_memory`),
because in this code the achieved packed peak is the
`required_memory` field and the theoretical peak is the
`peak_mem_usage` field. -/

theorem fragmentation_ratio_claim_false :
    run_address_generation graphEx fragOutEx true = some (2, 1 / 2) ∧
      fragOutEx.summary.peak_mem_usage <
        fragOutEx.summary.required_memory :=
  ⟨run_address_generation_fragOutEx, by decide⟩

/-- C2 (amended): in fragmentation-aware mode, the peak that
`run_address_generation` reports — `summary["required_memory"]`, the
achieved packed peak — is never below the theoretical
`summary["peak_mem_usage"]`, and for every well-formed input (positive
theoretical peak) the reported fragmentation ratio lies in [0, 1). -/

theorem fragmentation_ratio_amended (g : Graph) (r : SchedOutput) (ok : Bool)
    (p f : ℚ) (h : run_address_generation g r ok = some (p, f))
    (hpos : 0 < r.summary.peak_mem_usage) :
    r.summary.peak_mem_usage ≤ p ∧ 0 ≤ f ∧ f < 1 := by
  unfold run_address_generation at h
  by_cases h0 : r.summary.required_memory = 0
  · rw [if_pos h0] at h
    exact absurd h (by simp)
  · rw [if_neg h0] at h
    split at h
    · rename_i hcond
      obtain ⟨-, -, hle, -⟩ := hcond
      simp only [Option.some.injEq, Prod.mk.injEq] at h
      obtain ⟨hp, hf⟩ := h
      have hreqpos : 0 < r.summary.required_memory := lt_of_lt_of_le hpos hle
      refine ⟨hp ▸ hle, ?_, ?_⟩
      · rw [← hf]
        exact div_nonneg (by linarith) (by linarith)
      · rw [← hf]
        rw [div_lt_one hreqpos]
        linarith
    · exact absurd h (by simp)

/-- Witness for C2's amended theorem at a concrete accepted input. -/

theorem fragmentation_ratio_amended_witness :
    (run_address_generation graphEx fragOutEx true = some (2, 1 / 2) ∧
      0 < fragOutEx.summary.peak_mem_usage) ∧
      fragOutEx.summary.peak_mem_usage ≤ 2 ∧ (0 : ℚ) ≤ 1 / 2 ∧
        (1 / 2 : ℚ) < 1 :=
  ⟨⟨run_address_generation_fragOutEx, by decide⟩,
    fragmentation_ratio_amended graphEx fragOutEx true 2 (1 / 2)
      run_address_generation_fragOutEx (by decide)⟩

/-- C4: every memory budget a sweep passes to the scheduler is at least
the `ComputeMinimumMemoryRequired` floor — a budget computed below the
floor is replaced by the floor — and a clamped request is the last one
of the sweep. -/

theorem sweep_budgets_clamped (peak minMemory : ℚ) :
    (∀ b ∈ sweepBudgets peak minMemory, minMemory ≤ b) ∧
    (∀ (s : ℚ) (rest : List ℚ), peak * (1 - s) < minMemory →
      sweepAux peak minMemory (s :: rest) = [minMemory]) := by
  constructor
  · have haux : ∀ l : List ℚ, ∀ b ∈ sweepAux peak minMemory l,
        minMemory ≤ b := by
      intro l
      induction l with
      | nil =>
          intro b hb
          simp [sweepAux] at hb
      | cons s rest ih =>
          intro b hb
          rw [sweepAux] at hb
          by_cases hc : peak * (1 - s) < minMemory
          · rw [if_pos hc] at hb
            have : b = minMemory := by simpa using hb
            rw [this]
          · rw [if_neg hc] at hb
            rcases List.mem_cons.mp hb with h | h
            · rw [h]
              exact le_of_not_lt hc
            · exact ih b h
    exact haux savingsLevels
  · intro s rest hlt
    rw [sweepAux, if_pos hlt]

theorem sweepBudgets_ex : sweepBudgets 100 30 = [90, 75, 50, 30] := by
  norm_num [sweepBudgets, sweepAux, savingsLevels]

/-- Witness for C4: with peak 100 and floor 30 the requested budgets are
`[90, 75, 50, 30]`; in particular 90 is above the floor, and the level
with a sub-floor raw budget yields exactly the clamped singleton. -/

theorem sweep_budgets_clamped_witness :
    ((90 : ℚ) ∈ sweepBudgets 100 30 ∧ (100 : ℚ) * (1 - 1) < 30) ∧
      ((30 : ℚ) ≤ 90 ∧ sweepAux 100 30 [1] = [30]) :=
  ⟨⟨by rw [sweepBudgets_ex]; exact List.mem_cons_self _ _, by norm_num⟩,
    (sweep_budgets_clamped 100 30).1 90
      (by rw [sweepBudgets_ex]; exact List.mem_cons_self _ _),
    (sweep_budgets_clamped 100 30).2 1 [] (by norm_num)⟩

end OLLA
